import Mathlib

/-!
Verification of the traffic-light queue-grid environment
(`flow/envs/queue_grid.py`): edge indexing (`_split_edge` / `_convert_edge`),
the per-intersection phase machine (`_apply_rl_actions`), the discrete
action decoding, the reward penalty mask, and the boundary rerouting pass
(`additional_command` / `_reroute_if_final_edge`).

Edge labels are modelled as structured values: the result of the string
parse performed in `_split_edge` (a type among bot/top/left/right plus a
row and column index, an intra-intersection center label, or the empty
label).  The center branch of `_split_edge` reads only the first decimal
digit of the center number (`int(edge.split("center")[1][0])`), which is
modelled by `firstDigit`.
-/

namespace QueueGrid

/-- The four boundary/through edge kinds appearing in edge labels. -/
inductive EdgeType where
  | bot
  | top
  | left
  | right
deriving DecidableEq, Repr

/-- A parsed edge label: empty string, an intra-intersection center edge
(with the center number `k`), or a through edge `{type}{row}_{col}`. -/
inductive EdgeLabel where
  | empty : EdgeLabel
  | center (k : ℕ) : EdgeLabel
  | road (t : EdgeType) (row col : ℕ) : EdgeLabel
deriving DecidableEq, Repr

/-- Helper for `firstDigit`: structural recursion on a fuel argument (the
fuel never runs out, since a number needs at most `k` divisions by 10). -/
def firstDigitAux : ℕ → ℕ → ℕ
  | 0, k => k
  | fuel + 1, k => if k < 10 then k else firstDigitAux fuel (k / 10)

/-- First decimal digit of a natural number, mirroring the Python
`int(edge.split("center")[1][0])` which reads a single character. -/
def firstDigit (k : ℕ) : ℕ :=
  firstDigitAux k k

/-- The `base` offset computed in the center branch of `_split_edge`:
`((cols + 1) * rows * 2) + ((rows + 1) * cols * 2)`. -/
def base (rows cols : ℕ) : ℕ :=
  (cols + 1) * rows * 2 + (rows + 1) * cols * 2

/-- Modelled from the spec: `num_edges`, the closed-form number of edges of
the grid (the code reads it from the external network object).  It counts
the through edges (`base`) plus one center label per intersection. -/
def num_edges (rows cols : ℕ) : ℕ :=
  base rows cols + rows * cols

/-- `QueueGridEnv._split_edge`: convert a parsed edge label to a number.
Mirrors the source arithmetic branch by branch (`rows_below`, `cols_below`,
`edge_num`, the `+ 1` for `top`/`right`, the center branch, and the `0`
returned for a falsy edge string). -/
def split_edge (rows cols : ℕ) : EdgeLabel → ℕ
  | .empty => 0
  | .center k => base rows cols + firstDigit k + 1
  | .road .bot r c => 2 * (cols + 1) * r + 2 * (cols * (r + 1)) + 2 * c + 1
  | .road .top r c => 2 * (cols + 1) * r + 2 * (cols * (r + 1)) + 2 * c + 1 + 1
  | .road .left r c => 2 * (cols + 1) * r + 2 * (cols * r) + 2 * c + 1
  | .road .right r c => 2 * (cols + 1) * r + 2 * (cols * r) + 2 * c + 1 + 1

/-- `QueueGridEnv._convert_edge` on a list of edges: maps `_split_edge`. -/
def convert_edge (rows cols : ℕ) (edges : List EdgeLabel) : List ℕ :=
  edges.map (split_edge rows cols)

/-- The valid edge labels of a `rows × cols` grid: horizontal (`bot`/`top`)
edges exist for `row < rows`, `col ≤ cols`; vertical (`left`/`right`) edges
for `row ≤ rows`, `col < cols`; center labels for each intersection. -/
def validLabel (rows cols : ℕ) : EdgeLabel → Bool
  | .empty => false
  | .center k => k < rows * cols
  | .road .bot r c => decide (r < rows) && decide (c < cols + 1)
  | .road .top r c => decide (r < rows) && decide (c < cols + 1)
  | .road .left r c => decide (r < rows + 1) && decide (c < cols)
  | .road .right r c => decide (r < rows + 1) && decide (c < cols)

/-!
Per-intersection phase machine (`QueueGridEnv._apply_rl_actions`, the loop
body for one index `i`).  The per-intersection arrays `last_change`,
`direction` and `currently_yellow` become the fields of `TLState`;
`direction = false` models the value `0` (top-to-bottom flow) and
`direction = true` the value `1`.  The emitted `set_state` command is
returned as an optional string.
-/

/-- Timing configuration of the phase machine.  `min_switch_time` is
modelled from the spec: `_apply_rl_actions` reads `self.min_switch_time`,
which is never assigned under `src/` (the constructor stores the
`switch_time` parameter into `self.min_yellow_time`); per the spec the
threshold compared against the dwell timer is the configured switch time. -/
structure TLCfg where
  sim_step : ℚ
  min_switch_time : ℚ
deriving DecidableEq, Repr

/-- State of one intersection: the rows of `self.last_change`,
`self.direction` and `self.currently_yellow` for one index `i`. -/
structure TLState where
  last_change : ℚ
  direction : Bool
  currently_yellow : Bool
deriving DecidableEq, Repr

/-- Signal string sent when leaving yellow: `"GrGr"` when `direction == 0`,
`"rGrG"` otherwise. -/
def green_state (d : Bool) : String :=
  if d = false then "GrGr" else "rGrG"

/-- Signal string sent when entering yellow: `"yryr"` when `direction == 0`,
`"ryry"` otherwise. -/
def yellow_state (d : Bool) : String :=
  if d = false then "yryr" else "ryry"

/-- One iteration of the loop in `QueueGridEnv._apply_rl_actions` for a
single intersection: returns the updated state and the `set_state` command
emitted, if any.  Mirrors the source: in yellow, the timer is incremented
and, once it reaches `min_switch_time`, the green of the current
`direction` value is emitted and `currently_yellow` is cleared (the timer
is not reset); in green, an action bit of `1` emits the yellow of the
current direction, resets the timer to `0`, flips `direction` and sets
`currently_yellow`. -/
def apply_action (cfg : TLCfg) (s : TLState) (action : Bool) :
    TLState × Option String :=
  if s.currently_yellow then
    let lc := s.last_change + cfg.sim_step
    if cfg.min_switch_time ≤ lc then
      ({ last_change := lc, direction := s.direction,
         currently_yellow := false }, some (green_state s.direction))
    else
      ({ last_change := lc, direction := s.direction,
         currently_yellow := true }, none)
  else
    if action then
      ({ last_change := 0, direction := !s.direction,
         currently_yellow := true }, some (yellow_state s.direction))
    else
      (s, none)

/-- First `set_state` command emitted along a run of `apply_action` over a
list of action bits. -/
def first_cmd (cfg : TLCfg) (s : TLState) : List Bool → Option String
  | [] => none
  | a :: rest =>
    match apply_action cfg s a with
    | (_, some c) => some c
    | (s1, none) => first_cmd cfg s1 rest

/-!
Action decoding.  In the discrete case `_apply_rl_actions` converts the
integer action into its binary digit list via `'{0:0b}'.format(rl_actions)`
and left-pads with zeros to `num_traffic_lights` entries; entry `i` of the
mask is applied to intersection `i`.  In the continuous case the mask is
`rl_actions > 0.0` componentwise.
-/

/-- Binary digits of a natural number, most significant first; empty for 0.
Mirrors the digit list of `'{0:0b}'.format` for positive arguments. -/
def bin_digits (n : ℕ) : List ℕ :=
  if h : n = 0 then [] else bin_digits (n / 2) ++ [n % 2]
decreasing_by
  exact Nat.div_lt_self (Nat.pos_of_ne_zero h) (by omega)

/-- The digit list of `'{0:0b}'.format(n)`: `[0]` for `n = 0`, the binary
digits (most significant first) otherwise. -/
def to_binary (n : ℕ) : List ℕ :=
  if n = 0 then [0] else bin_digits n

/-- The `rl_mask` list built in the discrete branch of
`_apply_rl_actions`: the binary digits of the action, left-padded with
zeros to `n = num_traffic_lights` entries. -/
def rl_mask (n a : ℕ) : List ℕ :=
  List.replicate (n - (to_binary a).length) 0 ++ to_binary a

/-- Size of the discrete action space: `Discrete(2 ** num_traffic_lights)`
in `QueueGridEnv.action_space`. -/
def action_space_size (n : ℕ) : ℕ := 2 ^ n

/-- Value of a digit list read most-significant-first. -/
def of_bits (l : List ℕ) : ℕ :=
  l.foldl (fun acc b => 2 * acc + b) 0

/-- The continuous switch mask of `_apply_rl_actions`:
`rl_mask = rl_actions > 0.0` componentwise. -/
def switch_mask (acts : List ℚ) : List Bool :=
  acts.map (fun x => decide (0 < x))

/-- The mask passed to the penalty term in `QueueGridEnv.compute_reward`:
`rl_actions >= 0.5` componentwise. -/
def penalty_mask (acts : List ℚ) : List Bool :=
  acts.map (fun x => decide ((1 : ℚ) / 2 ≤ x))

/-- Modelled from the spec: `rewards.boolean_action_penalty` (the file
`flow/core/rewards.py` is not under `src/`), a fixed per-switch cost:
`gain` times the number of `true` entries of the boolean mask. -/
def boolean_action_penalty (mask : List Bool) (gain : ℚ) : ℚ :=
  gain * (mask.count true : ℚ)

/-!
Boundary rerouting (`QueueGridEnv.additional_command` and
`QueueGridEnv._reroute_if_final_edge`).  The external vehicle kernel is
modelled from the spec §6 as a list of vehicle records: `remove-vehicle(id)`
deletes the record with the given id and `add-vehicle` appends a record.
-/

/-- A vehicle record of the simulator kernel, with the fields the
rerouting pass reads or writes. -/
structure Veh where
  id : ℕ
  edge : EdgeLabel
  type_id : ℕ
  lane : ℕ
  pos : ℚ
  speed : ℚ
deriving DecidableEq, Repr

/-- Grid data used by the rerouting pass (`self.rows`, `self.cols`) and
the `speed="max"` value of `k.vehicle.add`. -/
structure RRCfg where
  rows : ℕ
  cols : ℕ
  max_speed : ℚ
deriving DecidableEq, Repr

/-- The terminal-edge test and entrance route of
`_reroute_if_final_edge`: `route_id` stays `None` unless the edge is the
designated terminal edge of its type. -/
def route_id (cfg : RRCfg) : EdgeType → ℕ → ℕ → Option EdgeLabel
  | .bot, r, c => if c = cfg.cols then some (.road .bot r 0) else none
  | .top, r, c => if c = 0 then some (.road .top r cfg.cols) else none
  | .left, r, c => if r = 0 then some (.road .left cfg.rows c) else none
  | .right, r, c => if r = cfg.rows then some (.road .right 0 c) else none

/-- `QueueGridEnv._reroute_if_final_edge` for one vehicle id: looks up the
vehicle, returns early on an empty or center edge, otherwise removes and
re-adds the vehicle at position 0 of its entrance route when its edge is
terminal.  The lookup is over the kernel state, modelled as a list of
vehicle records. -/
def reroute_if_final_edge (cfg : RRCfg) (s : List Veh) (i : ℕ) : List Veh :=
  match s.find? (fun v => v.id == i) with
  | none => s
  | some v =>
    match v.edge with
    | .empty => s
    | .center _ => s
    | .road t r c =>
      match route_id cfg t r c with
      | none => s
      | some e =>
        s.filter (fun w => !(w.id == i)) ++
          [{ id := i, edge := e, type_id := v.type_id, lane := v.lane,
             pos := 0, speed := cfg.max_speed }]

/-- `QueueGridEnv.additional_command`: applies `_reroute_if_final_edge` to
every vehicle id of the current enumeration (the id list is read once,
before the loop). -/
def additional_command (cfg : RRCfg) (s : List Veh) : List Veh :=
  (s.map Veh.id).foldl (reroute_if_final_edge cfg) s

/-!
Theorems.
-/

/-- Claim C10: `_split_edge` applied to an empty (falsy) edge string
returns 0 without raising, and every non-empty edge label maps to an index
greater than or equal to 1, so the value 0 acts as a sentinel that is
never assigned to an actual edge. -/
theorem c10_zero_sentinel (rows cols : ℕ) :
    split_edge rows cols .empty = 0 ∧
    ∀ l : EdgeLabel, l ≠ .empty → 1 ≤ split_edge rows cols l := by
  refine ⟨rfl, ?_⟩
  intro l hl
  match l with
  | .empty => exact absurd rfl hl
  | .center k => simp [split_edge]
  | .road t r c => cases t <;> simp [split_edge]

/-- Witness for C10 at `rows = cols = 1` and the label `bot0_0`. -/
theorem c10_zero_sentinel_witness :
    split_edge 1 1 .empty = 0 ∧
    (EdgeLabel.road .bot 0 0 ≠ .empty ∧
      1 ≤ split_edge 1 1 (.road .bot 0 0)) :=
  ⟨(c10_zero_sentinel 1 1).1,
    by decide, (c10_zero_sentinel 1 1).2 _ (by decide)⟩

/-- Counterexample to claim C9: on a 2 × 2 grid the out-of-bounds label
`left0_5` does not fail; `_split_edge` returns the integer 11, which even
collides with the index of the valid label `left1_0`. -/
theorem c9_counterexample :
    validLabel 2 2 (.road .left 0 5) = false ∧
    split_edge 2 2 (.road .left 0 5) = 11 ∧
    validLabel 2 2 (.road .left 1 0) = true ∧
    split_edge 2 2 (.road .left 1 0) = 11 := by
  decide

/-- Claim C9 amended: converting an out-of-bounds edge label does not
fail (no `InvalidEdgeError` exists in the code); `_split_edge` applies the
same arithmetic and returns a positive index, and such an index can
coincide with the index of a valid label: `left0_{cols}` always receives
the index of `bot0_0`. -/
theorem c9_no_bounds_check (rows cols : ℕ) (hr : 1 ≤ rows) :
    (∀ t r c, 1 ≤ split_edge rows cols (.road t r c)) ∧
    validLabel rows cols (.road .left 0 cols) = false ∧
    validLabel rows cols (.road .bot 0 0) = true ∧
    split_edge rows cols (.road .left 0 cols) =
      split_edge rows cols (.road .bot 0 0) := by
  refine ⟨?_, ?_, ?_, ?_⟩
  · intro t r c; cases t <;> simp [split_edge]
  · simp [validLabel]
  · simp [validLabel]; omega
  · simp [split_edge]

/-- Witness for C9 (amended) at `rows = cols = 2`. -/
theorem c9_no_bounds_check_witness :
    (1 ≤ split_edge 2 2 (.road .top 0 0)) ∧
    validLabel 2 2 (.road .left 0 2) = false ∧
    validLabel 2 2 (.road .bot 0 0) = true ∧
    split_edge 2 2 (.road .left 0 2) = split_edge 2 2 (.road .bot 0 0) := by
  obtain ⟨h1, h2, h3, h4⟩ := c9_no_bounds_check 2 2 (by decide)
  exact ⟨h1 .top 0 0, h2, h3, h4⟩

/-- Counterexample to claim C6: within a row-block the vertical edges
receive the lower indices, not the horizontal ones: on a 2 × 2 grid the
vertical edge `left0_0` gets index 1 while the horizontal edge `bot0_0` of
the same row-block gets index 5. -/
theorem c6_counterexample :
    validLabel 2 2 (.road .left 0 0) = true ∧
    validLabel 2 2 (.road .bot 0 0) = true ∧
    split_edge 2 2 (.road .left 0 0) = 1 ∧
    split_edge 2 2 (.road .bot 0 0) = 5 ∧
    split_edge 2 2 (.road .left 0 0) < split_edge 2 2 (.road .bot 0 0) := by
  decide

/-- Claim C6 amended: indices increase with column within each family and
then by row-block, each edge pair spanning the same physical road gets
consecutive indices (`bot` then `top`, `left` then `right`), and within
each row-block the vertical (`left`/`right`) edges receive lower indices
than the horizontal (`bot`/`top`) edges. -/
theorem c6_ordering (rows cols : ℕ) :
    (∀ r c, split_edge rows cols (.road .top r c) =
        split_edge rows cols (.road .bot r c) + 1 ∧
      split_edge rows cols (.road .right r c) =
        split_edge rows cols (.road .left r c) + 1) ∧
    (∀ t r c, split_edge rows cols (.road t r c) <
        split_edge rows cols (.road t r (c + 1))) ∧
    (∀ r c c2, c < cols → split_edge rows cols (.road .right r c) <
        split_edge rows cols (.road .bot r c2)) ∧
    (∀ r c c2, c ≤ cols → split_edge rows cols (.road .top r c) <
        split_edge rows cols (.road .left (r + 1) c2)) := by
  refine ⟨?_, ?_, ?_, ?_⟩
  · intro r c; exact ⟨rfl, rfl⟩
  · intro t r c; cases t <;> simp [split_edge]
  · intro r c c2 hc
    simp only [split_edge]
    have hx : cols * (r + 1) = cols * r + cols := by ring
    omega
  · intro r c c2 hc
    simp only [split_edge]
    have hx : 2 * (cols + 1) * (r + 1) = 2 * (cols + 1) * r + 2 * (cols + 1) := by
      ring
    omega

/-- Witness for C6 (amended) at `rows = cols = 2`. -/
theorem c6_ordering_witness :
    split_edge 2 2 (.road .right 0 1) < split_edge 2 2 (.road .bot 0 0) ∧
    split_edge 2 2 (.road .top 0 2) < split_edge 2 2 (.road .left 1 0) :=
  ⟨(c6_ordering 2 2).2.2.1 0 1 0 (by decide),
    (c6_ordering 2 2).2.2.2 0 2 0 (by decide)⟩

/-- Claim C2: from a yellow phase, the machine switches to a green phase
exactly when the dwell timer, incremented by the step duration, has
reached `min_switch_time` (so it never switches while the timer is below
the threshold); once the timer has reached the threshold before the step,
the switch happens within that one step; and the step of a yellow
intersection does not depend on the action bit. -/
theorem c2_yellow_switch (cfg : TLCfg) (s : TLState) (a a2 : Bool)
    (hy : s.currently_yellow = true) :
    ((apply_action cfg s a).1.currently_yellow = false ↔
      cfg.min_switch_time ≤ s.last_change + cfg.sim_step) ∧
    (0 ≤ cfg.sim_step → cfg.min_switch_time ≤ s.last_change →
      (apply_action cfg s a).1.currently_yellow = false) ∧
    apply_action cfg s a = apply_action cfg s a2 := by
  by_cases hsw : cfg.min_switch_time ≤ s.last_change + cfg.sim_step
  · refine ⟨by simp [apply_action, hy, hsw], fun _ _ => by simp [apply_action, hy, hsw], ?_⟩
    simp [apply_action, hy, hsw]
  · refine ⟨by simp [apply_action, hy, hsw], fun h1 h2 => absurd ?_ hsw, ?_⟩
    · linarith
    · simp [apply_action, hy, hsw]

/-- Witness for C2: a yellow intersection with timer 2 and threshold 2
switches within one step, for either action bit. -/
theorem c2_yellow_switch_witness :
    (⟨2, true, true⟩ : TLState).currently_yellow = true ∧
    ((apply_action ⟨1, 2⟩ ⟨2, true, true⟩ false).1.currently_yellow = false ↔
      (2 : ℚ) ≤ 2 + 1) ∧
    ((0 : ℚ) ≤ 1 → (2 : ℚ) ≤ 2 →
      (apply_action ⟨1, 2⟩ ⟨2, true, true⟩ false).1.currently_yellow = false) ∧
    apply_action ⟨1, 2⟩ ⟨2, true, true⟩ false =
      apply_action ⟨1, 2⟩ ⟨2, true, true⟩ true :=
  ⟨rfl, c2_yellow_switch ⟨1, 2⟩ ⟨2, true, true⟩ false true rfl⟩

/-- Counterexample to claim C3: with step duration 1 and threshold 2, a
green intersection receiving action bit 0 keeps its timer at 5 instead of
incrementing it, and a yellow-to-green transition leaves the timer at its
incremented value 2 instead of resetting it to 0. -/
theorem c3_counterexample :
    (apply_action ⟨1, 2⟩ ⟨5, false, false⟩ false).1.last_change ≠ 5 + 1 ∧
    (apply_action ⟨1, 2⟩ ⟨1, true, true⟩ false).1.currently_yellow = false ∧
    (apply_action ⟨1, 2⟩ ⟨1, true, true⟩ false).1.last_change ≠ 0 := by
  refine ⟨?_, ?_, ?_⟩ <;> norm_num [apply_action]

/-- Claim C3 amended: the dwell timer `last_change` stays non-negative
(given a non-negative step duration); on every yellow step it increments
by the step duration, whether or not the step transitions to green (so a
yellow-to-green transition does not reset it, and its value at such a
transition is at least the threshold); a green step with action bit 0
leaves the whole state, including the timer, unchanged; and a
green-to-yellow transition resets the timer to exactly 0. -/
theorem c3_dwell (cfg : TLCfg) (s : TLState) (a : Bool)
    (hstep : 0 ≤ cfg.sim_step) (hlc : 0 ≤ s.last_change) :
    0 ≤ (apply_action cfg s a).1.last_change ∧
    (s.currently_yellow = true →
      (apply_action cfg s a).1.last_change = s.last_change + cfg.sim_step) ∧
    (s.currently_yellow = false → a = false → (apply_action cfg s a).1 = s) ∧
    (s.currently_yellow = false → a = true →
      (apply_action cfg s a).1.last_change = 0) ∧
    (s.currently_yellow = true →
      (apply_action cfg s a).1.currently_yellow = false →
      cfg.min_switch_time ≤ (apply_action cfg s a).1.last_change) := by
  by_cases hy : s.currently_yellow = true
  · have hy2 : s.currently_yellow = true := hy
    by_cases hsw : cfg.min_switch_time ≤ s.last_change + cfg.sim_step
    · refine ⟨?_, fun _ => ?_, fun hg => absurd hy2 (by simp [hg]), fun hg => absurd hy2 (by simp [hg]), fun _ _ => ?_⟩ <;>
        simp [apply_action, hy, hsw]
      · linarith
    · refine ⟨?_, fun _ => ?_, fun hg => absurd hy2 (by simp [hg]), fun hg => absurd hy2 (by simp [hg]), fun _ hc => ?_⟩
      · simp [apply_action, hy, hsw]; linarith
      · simp [apply_action, hy, hsw]
      · rw [show (apply_action cfg s a).1.currently_yellow = true by
          simp [apply_action, hy, hsw]] at hc
        exact absurd hc (by simp)
  · have hy2 : s.currently_yellow = false := by revert hy; cases s.currently_yellow <;> simp
    cases a
    · refine ⟨?_, fun hc => absurd hc (by simp [hy2]), fun _ _ => ?_, fun _ h => absurd h (by simp), fun hc => absurd hc (by simp [hy2])⟩ <;>
        simp [apply_action, hy2]
      exact hlc
    · refine ⟨?_, fun hc => absurd hc (by simp [hy2]), fun _ h => absurd h (by simp), fun _ _ => ?_, fun hc => absurd hc (by simp [hy2])⟩ <;>
        simp [apply_action, hy2]

/-- Witness for C3 (amended): a yellow step with timer 0 and step 1. -/
theorem c3_dwell_witness :
    (0 : ℚ) ≤ 1 ∧ (0 : ℚ) ≤ 0 ∧
    ((⟨0, true, true⟩ : TLState).currently_yellow = true →
      (apply_action ⟨1, 2⟩ ⟨0, true, true⟩ false).1.last_change = 0 + 1) :=
  ⟨by norm_num, le_refl 0,
    (c3_dwell ⟨1, 2⟩ ⟨0, true, true⟩ false (by norm_num) (le_refl 0)).2.1⟩

/-- While an intersection is yellow, the first `set_state` command emitted
along any action sequence is the green of the direction stored at the
start of the yellow period (actions are ignored, and the direction is not
modified during yellow). -/
lemma first_cmd_from_yellow (cfg : TLCfg) :
    ∀ (acts : List Bool) (s : TLState) (c : String),
      s.currently_yellow = true → first_cmd cfg s acts = some c →
      c = green_state s.direction := by
  intro acts
  induction acts with
  | nil => intro s c _ h; simp [first_cmd] at h
  | cons a rest ih =>
    intro s c hy h
    by_cases hsw : cfg.min_switch_time ≤ s.last_change + cfg.sim_step
    · have ha : apply_action cfg s a =
          (⟨s.last_change + cfg.sim_step, s.direction, false⟩,
            some (green_state s.direction)) := by
        simp [apply_action, hy, hsw]
      rw [first_cmd, ha] at h
      exact (Option.some_inj.mp h).symm
    · have ha : apply_action cfg s a =
          (⟨s.last_change + cfg.sim_step, s.direction, true⟩, none) := by
        simp [apply_action, hy, hsw]
      rw [first_cmd, ha] at h
      exact ih ⟨s.last_change + cfg.sim_step, s.direction, true⟩ c rfl h

/-- Claim C4: whenever an intersection leaves a yellow phase, the green
phase it enters is the one of the other flow direction, never the green
it occupied immediately before the yellow began, for every action
sequence: starting from a green state and switching (action bit 1), the
first command subsequently emitted, if any, is the green of the flipped
direction. -/
theorem c4_no_repeat (cfg : TLCfg) (s : TLState) (acts : List Bool)
    (c : String) (hy : s.currently_yellow = false)
    (h : first_cmd cfg (apply_action cfg s true).1 acts = some c) :
    c = green_state (!s.direction) ∧ c ≠ green_state s.direction := by
  have h1 : (apply_action cfg s true).1 = ⟨0, !s.direction, true⟩ := by
    simp [apply_action, hy]
  rw [h1] at h
  have h2 := first_cmd_from_yellow cfg acts ⟨0, !s.direction, true⟩ c rfl h
  refine ⟨h2, ?_⟩
  rw [h2]
  cases s.direction <;> decide

/-- Witness for C4: entering yellow from the green of direction 0 with
threshold 2 and step 1, two no-op steps later the emitted green is the
green of direction 1. -/
theorem c4_no_repeat_witness :
    (⟨0, false, false⟩ : TLState).currently_yellow = false ∧
    first_cmd ⟨1, 2⟩ (apply_action ⟨1, 2⟩ ⟨0, false, false⟩ true).1
      [false, false] = some "rGrG" ∧
    ("rGrG" = green_state (!(⟨0, false, false⟩ : TLState).direction) ∧
      "rGrG" ≠ green_state (⟨0, false, false⟩ : TLState).direction) := by
  have hfc : first_cmd ⟨1, 2⟩ (apply_action ⟨1, 2⟩ ⟨0, false, false⟩ true).1
      [false, false] = some "rGrG" := by
    norm_num [first_cmd, apply_action, green_state]
  exact ⟨rfl, hfc, c4_no_repeat ⟨1, 2⟩ ⟨0, false, false⟩ [false, false]
    "rGrG" rfl hfc⟩

/-- Reading one more digit multiplies the accumulated value by 2. -/
lemma of_bits_append (l : List ℕ) (b : ℕ) :
    of_bits (l ++ [b]) = 2 * of_bits l + b := by
  simp [of_bits, List.foldl_append]

/-- `bin_digits` is a correct most-significant-first binary encoding. -/
lemma of_bits_bin_digits : ∀ n, of_bits (bin_digits n) = n := by
  intro n
  induction n using Nat.strong_induction_on with
  | _ n ih =>
    by_cases h : n = 0
    · simp [bin_digits, h, of_bits]
    · rw [bin_digits]
      simp only [h, dite_false]
      rw [of_bits_append, ih (n / 2) (Nat.div_lt_self (Nat.pos_of_ne_zero h) (by omega))]
      omega

/-- The binary digit list of `n < 2 ^ k` has at most `k` digits. -/
lemma bin_digits_length_le : ∀ n k, n < 2 ^ k → (bin_digits n).length ≤ k := by
  intro n
  induction n using Nat.strong_induction_on with
  | _ n ih =>
    intro k hk
    by_cases h : n = 0
    · simp [bin_digits, h]
    · rw [bin_digits]
      simp only [h, dite_false, List.length_append, List.length_cons,
        List.length_nil]
      have hk1 : 1 ≤ k := by
        by_contra hc
        have : k = 0 := by omega
        subst this
        simp at hk
        omega
      have hdiv : n / 2 < 2 ^ (k - 1) := by
        have h2 : (2 : ℕ) ^ k = 2 ^ (k - 1) * 2 := by
          rw [← pow_succ]
          congr 1
          omega
        rw [Nat.div_lt_iff_lt_mul (by omega)]
        omega
      have := ih (n / 2) (Nat.div_lt_self (Nat.pos_of_ne_zero h) (by omega))
        (k - 1) hdiv
      omega

/-- Every entry of `bin_digits` is a binary digit. -/
lemma bin_digits_le_one : ∀ n, ∀ b ∈ bin_digits n, b ≤ 1 := by
  intro n
  induction n using Nat.strong_induction_on with
  | _ n ih =>
    intro b hb
    by_cases h : n = 0
    · simp [bin_digits, h] at hb
    · rw [bin_digits] at hb
      simp only [h, dite_false, List.mem_append, List.mem_singleton] at hb
      rcases hb with hb | hb
      · exact ih (n / 2) (Nat.div_lt_self (Nat.pos_of_ne_zero h) (by omega)) b hb
      · omega

/-- Leading zeros do not change the decoded value. -/
lemma of_bits_replicate_zero_append (m : ℕ) (l : List ℕ) :
    of_bits (List.replicate m 0 ++ l) = of_bits l := by
  induction m with
  | zero => simp
  | succ m ih =>
    rw [List.replicate_succ, List.cons_append]
    simpa [of_bits] using ih

/-- Claim C7: with `discrete = True` the action space is
`Discrete(2 ** num_traffic_lights)` — size 8 for 3 intersections — and
`_apply_rl_actions` decodes every integer action below `2 ^ n` into its
`n`-entry binary switch mask, most significant digit first; entry `i` of
the mask is applied to intersection `i`, so the most significant bit goes
to intersection 0. -/
theorem c7_discrete_decode :
    action_space_size 3 = 8 ∧
    ∀ n a, 1 ≤ n → a < action_space_size n →
      (rl_mask n a).length = n ∧
      (∀ b ∈ rl_mask n a, b ≤ 1) ∧
      of_bits (rl_mask n a) = a := by
  refine ⟨rfl, ?_⟩
  intro n a hn ha
  have hlen : (to_binary a).length ≤ n := by
    by_cases h : a = 0
    · simp [to_binary, h]; omega
    · simp only [to_binary, h, if_false]
      exact bin_digits_length_le a n ha
  refine ⟨?_, ?_, ?_⟩
  · simp [rl_mask]
    omega
  · intro b hb
    simp only [rl_mask, List.mem_append, List.mem_replicate] at hb
    rcases hb with hb | hb
    · omega
    · by_cases h : a = 0
      · simp [to_binary, h] at hb
        omega
      · simp only [to_binary, h, if_false] at hb
        exact bin_digits_le_one a b hb
  · rw [rl_mask, of_bits_replicate_zero_append]
    by_cases h : a = 0
    · simp [to_binary, h, of_bits]
    · simp only [to_binary, h, if_false]
      exact of_bits_bin_digits a

/-- Witness for C7 at `n = 3`, `a = 5`: mask `[1, 0, 1]`. -/
theorem c7_discrete_decode_witness :
    (rl_mask 3 5).length = 3 ∧
    (∀ b ∈ rl_mask 3 5, b ≤ 1) ∧
    of_bits (rl_mask 3 5) = 5 :=
  c7_discrete_decode.2 3 5 (by omega) (by decide)

/-- Counterexample to claim C8: an action component of 0.3 is interpreted
as a switch by `_apply_rl_actions` (`0.3 > 0.0`) but is not counted by
the penalty term of `compute_reward` (`0.3 >= 0.5` is false), so the two
sets differ. -/
theorem c8_counterexample :
    switch_mask [(3 : ℚ) / 10] = [true] ∧
    penalty_mask [(3 : ℚ) / 10] = [false] ∧
    penalty_mask [(3 : ℚ) / 10] ≠ switch_mask [(3 : ℚ) / 10] := by
  refine ⟨?_, ?_, ?_⟩ <;> norm_num [switch_mask, penalty_mask]

/-- Claim C8 amended: the set of intersections counted by the switch-cost
term of `compute_reward` is `{i | a_i ≥ 0.5}`, a subset of the set
`{i | a_i > 0}` of intersections `_apply_rl_actions` interprets as
switching; the two sets coincide exactly when no action component lies in
the interval `(0, 0.5)`. -/
theorem c8_penalty_mask (acts : List ℚ) :
    (∀ i, (penalty_mask acts).getD i false = true →
      (switch_mask acts).getD i false = true) ∧
    (penalty_mask acts = switch_mask acts ↔
      ∀ x ∈ acts, 0 < x → (1 : ℚ) / 2 ≤ x) := by
  constructor
  · intro i
    induction acts generalizing i with
    | nil => intro h; simp [penalty_mask, switch_mask] at h
    | cons a rest ih =>
      intro h
      cases i with
      | zero =>
        simp only [penalty_mask, switch_mask, List.map_cons,
          List.getD_cons_zero, decide_eq_true_eq] at h ⊢
        linarith
      | succ j =>
        simp only [penalty_mask, switch_mask, List.map_cons,
          List.getD_cons_succ] at h ⊢
        exact ih j h
  · have hx : ∀ x : ℚ, (decide ((1 : ℚ) / 2 ≤ x) = decide (0 < x)) ↔
        (0 < x → (1 : ℚ) / 2 ≤ x) := by
      intro x
      rw [decide_eq_decide]
      constructor
      · intro hiff h0
        exact hiff.mpr h0
      · intro himp
        constructor
        · intro hle
          linarith
        · exact himp
    induction acts with
    | nil => simp [penalty_mask, switch_mask]
    | cons a rest ih =>
      simp only [penalty_mask, switch_mask, List.map_cons, List.cons.injEq,
        List.forall_mem_cons] at ih ⊢
      rw [hx a]
      exact and_congr_right fun _ => ih

/-- Witness for C8 (amended) at the action vector `[1]`. -/
theorem c8_penalty_mask_witness :
    ((penalty_mask [(1 : ℚ)]).getD 0 false = true →
      (switch_mask [(1 : ℚ)]).getD 0 false = true) ∧
    (penalty_mask [(1 : ℚ)] = switch_mask [(1 : ℚ)] ↔
      ∀ x ∈ [(1 : ℚ)], 0 < x → (1 : ℚ) / 2 ≤ x) :=
  ⟨(c8_penalty_mask [(1 : ℚ)]).1 0, (c8_penalty_mask [(1 : ℚ)]).2⟩

/-- Mapping ids commutes with the removal filter of `k.vehicle.remove`. -/
lemma ids_filter (s : List Veh) (i : ℕ) :
    (s.filter (fun w => !(w.id == i))).map Veh.id =
      (s.map Veh.id).filter (fun j => !(j == i)) := by
  induction s with
  | nil => rfl
  | cons a rest ih =>
    by_cases ha : a.id = i
    · simp [List.filter_cons, ha, ih]
    · simp [List.filter_cons, ha, ih]

/-- Removing one occurrence of `i` from a list without duplicates and
appending `i` is a permutation of the original list. -/
lemma nodup_perm_filter (i : ℕ) :
    ∀ l : List ℕ, l.Nodup → i ∈ l →
      List.Perm (l.filter (fun j => !(j == i)) ++ [i]) l := by
  intro l
  induction l with
  | nil => intro _ hi; cases hi
  | cons a rest ih =>
    intro hn hi
    by_cases ha : a = i
    · subst ha
      have hni : a ∉ rest := (List.nodup_cons.mp hn).1
      have hre : rest.filter (fun j => !(j == a)) = rest := by
        rw [List.filter_eq_self]
        intro b hb
        simp only [Bool.not_eq_eq_eq_not, Bool.not_true, beq_eq_false_iff_ne,
          ne_eq]
        intro hba
        exact hni (hba ▸ hb)
      have hfc : (a :: rest).filter (fun j => !(j == a)) = rest := by
        simp [List.filter_cons, hre]
      rw [hfc]
      exact List.perm_append_singleton a rest
    · have hi2 : i ∈ rest := by
        rcases List.mem_cons.mp hi with h | h
        · exact absurd h.symm ha
        · exact h
      have hn2 := (List.nodup_cons.mp hn).2
      have hab : (a == i) = false := beq_eq_false_iff_ne.mpr ha
      simp only [List.filter_cons, hab, Bool.not_false, List.cons_append]
      exact List.Perm.cons a (ih hn2 hi2)

/-- One call of `_reroute_if_final_edge` permutes the vehicle ids: the
removed vehicle is immediately re-added under the same id. -/
lemma reroute_ids_perm (cfg : RRCfg) (s : List Veh) (i : ℕ)
    (hn : (s.map Veh.id).Nodup) :
    List.Perm ((reroute_if_final_edge cfg s i).map Veh.id)
      (s.map Veh.id) := by
  rw [reroute_if_final_edge]
  split
  · exact List.Perm.refl _
  next v hf =>
    split
    · exact List.Perm.refl _
    · exact List.Perm.refl _
    next t r c hve =>
      split
      · exact List.Perm.refl _
      next e hrid =>
        have hvid : v.id = i := by
          have := List.find?_some hf
          simpa using this
        have hvmem : v ∈ s := List.mem_of_find?_eq_some hf
        have hiin : i ∈ s.map Veh.id := by
          rw [← hvid]
          exact List.mem_map_of_mem Veh.id hvmem
        rw [List.map_append, ids_filter]
        simpa using nodup_perm_filter i (s.map Veh.id) hn hiin

/-- A vehicle on a center or empty edge is untouched by
`_reroute_if_final_edge`. -/
lemma reroute_center_mem (cfg : RRCfg) (s : List Veh) (i : ℕ)
    (hn : (s.map Veh.id).Nodup) (v : Veh) (hv : v ∈ s)
    (he : v.edge = .empty ∨ ∃ k, v.edge = .center k) :
    v ∈ reroute_if_final_edge cfg s i := by
  rw [reroute_if_final_edge]
  split
  · exact hv
  next w hf =>
    split
    · exact hv
    · exact hv
    next t r c hwe =>
      split
      · exact hv
      next e hrid =>
        have hwid : w.id = i := by
          have := List.find?_some hf
          simpa using this
        have hwmem : w ∈ s := List.mem_of_find?_eq_some hf
        have hvi : v.id ≠ i := by
          intro hvi
          have hveq : v = w :=
            List.inj_on_of_nodup_map hn hv hwmem (by rw [hvi, hwid])
          rcases he with h | ⟨k2, h⟩
          · rw [hveq, hwe] at h
            cases h
          · rw [hveq, hwe] at h
            cases h
        apply List.mem_append_left
        rw [List.mem_filter]
        exact ⟨hv, by simpa using hvi⟩

/-- Folding `_reroute_if_final_edge` over any id list permutes the
vehicle ids and keeps center-edge and empty-edge vehicles untouched. -/
lemma foldl_reroute (cfg : RRCfg) :
    ∀ (il : List ℕ) (s : List Veh), (s.map Veh.id).Nodup →
      List.Perm ((il.foldl (reroute_if_final_edge cfg) s).map Veh.id)
        (s.map Veh.id) ∧
      (∀ v ∈ s, (v.edge = .empty ∨ ∃ k, v.edge = .center k) →
        v ∈ il.foldl (reroute_if_final_edge cfg) s) := by
  intro il
  induction il with
  | nil => exact fun s _ => ⟨List.Perm.refl _, fun v hv _ => hv⟩
  | cons i rest ih =>
    intro s hn
    have hp := reroute_ids_perm cfg s i hn
    have hn2 : ((reroute_if_final_edge cfg s i).map Veh.id).Nodup :=
      (hp.nodup_iff).mpr hn
    obtain ⟨hp2, hm2⟩ := ih (reroute_if_final_edge cfg s i) hn2
    refine ⟨hp2.trans hp, ?_⟩
    intro v hv he
    exact hm2 v (reroute_center_mem cfg s i hn v hv he) he

/-- Claim C5: the boundary rerouting pass (`additional_command` over
`_reroute_if_final_edge`) preserves the global vehicle count exactly,
every vehicle id present before is present after (a removed vehicle is
immediately re-added under the same id), and vehicles on center edges or
with an empty edge label are never removed. -/
theorem c5_reroute_preserves_count (cfg : RRCfg) (s : List Veh)
    (hn : (s.map Veh.id).Nodup) :
    (additional_command cfg s).length = s.length ∧
    (∀ v ∈ s, ∃ w ∈ additional_command cfg s, w.id = v.id) ∧
    (∀ v ∈ s, (v.edge = .empty ∨ ∃ k, v.edge = .center k) →
      v ∈ additional_command cfg s) := by
  obtain ⟨hp, hm⟩ := foldl_reroute cfg (s.map Veh.id) s hn
  refine ⟨?_, ?_, hm⟩
  · have hlen := hp.length_eq
    simpa using hlen
  · intro v hv
    have hvin : v.id ∈ (additional_command cfg s).map Veh.id :=
      (hp.mem_iff).mpr (List.mem_map_of_mem Veh.id hv)
    obtain ⟨w, hw, hwid⟩ := List.mem_map.mp hvin
    exact ⟨w, hw, hwid⟩

/-- Witness for C5: a two-vehicle state, one on a terminal `bot` edge and
one on a center edge, on a 1 × 1 grid. -/
theorem c5_reroute_preserves_count_witness :
    (additional_command ⟨1, 1, 10⟩
        [⟨0, .road .bot 0 1, 0, 0, 0, 0⟩, ⟨1, .center 0, 0, 0, 0, 0⟩]).length =
      ([⟨0, .road .bot 0 1, 0, 0, 0, 0⟩,
        ⟨1, .center 0, 0, 0, 0, 0⟩] : List Veh).length ∧
    (∀ v ∈ ([⟨0, .road .bot 0 1, 0, 0, 0, 0⟩,
        ⟨1, .center 0, 0, 0, 0, 0⟩] : List Veh),
      ∃ w ∈ additional_command ⟨1, 1, 10⟩
        [⟨0, .road .bot 0 1, 0, 0, 0, 0⟩, ⟨1, .center 0, 0, 0, 0, 0⟩],
        w.id = v.id) ∧
    (∀ v ∈ ([⟨0, .road .bot 0 1, 0, 0, 0, 0⟩,
        ⟨1, .center 0, 0, 0, 0, 0⟩] : List Veh),
      (v.edge = .empty ∨ ∃ k, v.edge = .center k) →
      v ∈ additional_command ⟨1, 1, 10⟩
        [⟨0, .road .bot 0 1, 0, 0, 0, 0⟩, ⟨1, .center 0, 0, 0, 0, 0⟩]) :=
  c5_reroute_preserves_count ⟨1, 1, 10⟩
    [⟨0, .road .bot 0 1, 0, 0, 0, 0⟩, ⟨1, .center 0, 0, 0, 0, 0⟩] (by decide)

/-- A single-digit number is its own first digit. -/
lemma firstDigit_eq {k : ℕ} (h : k < 10) : firstDigit k = k := by
  cases k with
  | zero => rfl
  | succ m => simp [firstDigit, firstDigitAux, h]

/-- Offset of a through edge inside its row-block, by type and column. -/
def road_off (cols : ℕ) : EdgeType → ℕ → ℕ
  | .left, c => 2 * c
  | .right, c => 2 * c + 1
  | .bot, c => 2 * cols + 2 * c
  | .top, c => 2 * cols + 2 * c + 1

/-- Column bound of a valid through edge, by type. -/
def col_bound (cols : ℕ) : EdgeType → ℕ → Prop
  | .left, c => c < cols
  | .right, c => c < cols
  | .bot, c => c < cols + 1
  | .top, c => c < cols + 1

/-- Row bound of a valid through edge, by type. -/
def row_bound (rows : ℕ) : EdgeType → ℕ → Prop
  | .left, r => r < rows + 1
  | .right, r => r < rows + 1
  | .bot, r => r < rows
  | .top, r => r < rows

/-- `validLabel` on a through edge unfolds to the row and column bounds. -/
lemma valid_road (rows cols : ℕ) (t : EdgeType) (r c : ℕ) :
    validLabel rows cols (.road t r c) = true ↔
      row_bound rows t r ∧ col_bound cols t c := by
  cases t <;> simp [validLabel, row_bound, col_bound]

/-- Normal form of `_split_edge` on a through edge: a row-block of size
`2 * (2 * cols + 1)` plus the in-block offset, one-indexed. -/
lemma split_edge_road (rows cols : ℕ) (t : EdgeType) (r c : ℕ) :
    split_edge rows cols (.road t r c) =
      r * (2 * (2 * cols + 1)) + road_off cols t c + 1 := by
  cases t <;> simp only [split_edge, road_off] <;> ring

/-- The in-block offset of a valid through edge is below the block size. -/
lemma road_off_lt (cols : ℕ) (t : EdgeType) (c : ℕ)
    (h : col_bound cols t c) :
    road_off cols t c < 2 * (2 * cols + 1) := by
  cases t <;> simp only [road_off, col_bound] at h ⊢ <;> omega

/-- Within a row-block, the offset determines the type and the column. -/
lemma road_off_inj (cols : ℕ) (t t2 : EdgeType) (c c2 : ℕ)
    (h : col_bound cols t c) (h2 : col_bound cols t2 c2)
    (he : road_off cols t c = road_off cols t2 c2) : t = t2 ∧ c = c2 := by
  cases t <;> cases t2 <;>
    simp only [road_off, col_bound] at h h2 he <;>
    first
      | exact ⟨rfl, by omega⟩
      | exact absurd he (by omega)

/-- Quotient-remainder decomposition with a common block size is unique. -/
lemma div_block_unique {T r w r2 w2 : ℕ} (hw : w < T) (hw2 : w2 < T)
    (h : r * T + w = r2 * T + w2) : r = r2 ∧ w = w2 := by
  have hT : 0 < T := by omega
  have e1 : (r * T + w) / T = r := by
    rw [mul_comm, Nat.mul_add_div hT, Nat.div_eq_of_lt hw, Nat.add_zero]
  have e2 : (r2 * T + w2) / T = r2 := by
    rw [mul_comm, Nat.mul_add_div hT, Nat.div_eq_of_lt hw2, Nat.add_zero]
  have hr : r = r2 := by rw [← e1, ← e2, h]
  subst hr
  exact ⟨rfl, Nat.add_left_cancel h⟩

/-- Every valid through edge has its index within the first `base`
positions. -/
lemma road_le_base (rows cols : ℕ) (t : EdgeType) (r c : ℕ)
    (hval : validLabel rows cols (.road t r c) = true) :
    split_edge rows cols (.road t r c) ≤ base rows cols := by
  have hb : base rows cols = rows * (2 * (2 * cols + 1)) + 2 * cols := by
    simp only [base]; ring
  obtain ⟨hr, hc⟩ := (valid_road rows cols t r c).mp hval
  cases t
  case bot =>
    simp only [row_bound, col_bound] at hr hc
    simp only [split_edge]
    have h1 : 2 * (cols + 1) * r + 2 * (cols * (r + 1)) =
        r * (2 * (2 * cols + 1)) + 2 * cols := by ring
    have h2 : (r + 1) * (2 * (2 * cols + 1)) ≤ rows * (2 * (2 * cols + 1)) :=
      Nat.mul_le_mul_right _ (by omega)
    have h3 : (r + 1) * (2 * (2 * cols + 1)) =
        r * (2 * (2 * cols + 1)) + 2 * (2 * cols + 1) := by ring
    omega
  case top =>
    simp only [row_bound, col_bound] at hr hc
    simp only [split_edge]
    have h1 : 2 * (cols + 1) * r + 2 * (cols * (r + 1)) =
        r * (2 * (2 * cols + 1)) + 2 * cols := by ring
    have h2 : (r + 1) * (2 * (2 * cols + 1)) ≤ rows * (2 * (2 * cols + 1)) :=
      Nat.mul_le_mul_right _ (by omega)
    have h3 : (r + 1) * (2 * (2 * cols + 1)) =
        r * (2 * (2 * cols + 1)) + 2 * (2 * cols + 1) := by ring
    omega
  case left =>
    simp only [row_bound, col_bound] at hr hc
    simp only [split_edge]
    have h1 : 2 * (cols + 1) * r + 2 * (cols * r) =
        r * (2 * (2 * cols + 1)) := by ring
    have h2 : r * (2 * (2 * cols + 1)) ≤ rows * (2 * (2 * cols + 1)) :=
      Nat.mul_le_mul_right _ (by omega)
    omega
  case right =>
    simp only [row_bound, col_bound] at hr hc
    simp only [split_edge]
    have h1 : 2 * (cols + 1) * r + 2 * (cols * r) =
        r * (2 * (2 * cols + 1)) := by ring
    have h2 : r * (2 * (2 * cols + 1)) ≤ rows * (2 * (2 * cols + 1)) :=
      Nat.mul_le_mul_right _ (by omega)
    omega

/-- `_split_edge` is injective on the valid labels of a grid with at most
ten intersections. -/
lemma split_edge_inj (rows cols : ℕ) (hcap : rows * cols ≤ 10) :
    ∀ l l2 : EdgeLabel, validLabel rows cols l = true →
      validLabel rows cols l2 = true →
      split_edge rows cols l = split_edge rows cols l2 → l = l2 := by
  intro l l2 hv hv2 he
  cases l with
  | empty => simp [validLabel] at hv
  | center k =>
    cases l2 with
    | empty => simp [validLabel] at hv2
    | center k2 =>
      simp only [validLabel, decide_eq_true_eq] at hv hv2
      have hk : firstDigit k = k := firstDigit_eq (by omega)
      have hk2 : firstDigit k2 = k2 := firstDigit_eq (by omega)
      simp only [split_edge, hk, hk2] at he
      have : k = k2 := by omega
      rw [this]
    | road t2 r2 c2 =>
      have hle := road_le_base rows cols t2 r2 c2 hv2
      have hge : base rows cols < split_edge rows cols (.center k) := by
        simp only [split_edge]
        omega
      omega
  | road t r c =>
    cases l2 with
    | empty => simp [validLabel] at hv2
    | center k2 =>
      have hle := road_le_base rows cols t r c hv
      have hge : base rows cols < split_edge rows cols (.center k2) := by
        simp only [split_edge]
        omega
      omega
    | road t2 r2 c2 =>
      rw [split_edge_road, split_edge_road] at he
      obtain ⟨hr, hc⟩ := (valid_road rows cols t r c).mp hv
      obtain ⟨hr2, hc2⟩ := (valid_road rows cols t2 r2 c2).mp hv2
      have hw := road_off_lt cols t c hc
      have hw2 := road_off_lt cols t2 c2 hc2
      obtain ⟨hre, hwe⟩ :=
        @div_block_unique (2 * (2 * cols + 1)) r (road_off cols t c) r2
          (road_off cols t2 c2) hw hw2 (by omega)
      obtain ⟨ht, hcc⟩ := road_off_inj cols t t2 c c2 hc hc2 hwe
      rw [ht, hre, hcc]

/-- `_split_edge` maps the valid through edges onto `[1, base]`. -/
lemma boundary_surj (cols : ℕ) :
    ∀ rows n, 1 ≤ n → n ≤ base rows cols →
      ∃ t r c, validLabel rows cols (.road t r c) = true ∧
        split_edge rows cols (.road t r c) = n := by
  intro rows
  induction rows with
  | zero =>
    intro n h1 h2
    have hb : base 0 cols = 2 * cols := by
      simp only [base]
      ring
    rw [hb] at h2
    by_cases hpar : (n - 1) % 2 = 0
    · refine ⟨.left, 0, (n - 1) / 2, ?_, ?_⟩
      · simp only [validLabel, Bool.and_eq_true, decide_eq_true_eq]
        omega
      · simp only [split_edge]
        omega
    · refine ⟨.right, 0, (n - 1) / 2, ?_, ?_⟩
      · simp only [validLabel, Bool.and_eq_true, decide_eq_true_eq]
        omega
      · simp only [split_edge]
        omega
  | succ rows ih =>
    intro n h1 h2
    by_cases hn : n ≤ base rows cols
    · obtain ⟨t, r, c, hval, hidx⟩ := ih n h1 hn
      refine ⟨t, r, c, ?_, ?_⟩
      · cases t <;>
          simp only [validLabel, Bool.and_eq_true, decide_eq_true_eq]
            at hval ⊢ <;>
          omega
      · rw [← hidx]
        cases t <;> rfl
    · have hb1 : base (rows + 1) cols = base rows cols + (4 * cols + 2) := by
        simp only [base]; ring
      by_cases hh : n ≤ base rows cols + 2 * (cols + 1)
      · have hkeyb : ∀ c2 : ℕ,
            split_edge (rows + 1) cols (.road .bot rows c2) =
              base rows cols + 2 * c2 + 1 := by
          intro c2; simp only [split_edge, base]; ring
        have hkeyt : ∀ c2 : ℕ,
            split_edge (rows + 1) cols (.road .top rows c2) =
              base rows cols + 2 * c2 + 2 := by
          intro c2; simp only [split_edge, base]; ring
        by_cases hpar : (n - base rows cols) % 2 = 1
        · refine ⟨.bot, rows, (n - base rows cols - 1) / 2, ?_, ?_⟩
          · simp only [validLabel, Bool.and_eq_true, decide_eq_true_eq]
            omega
          · rw [hkeyb]
            omega
        · refine ⟨.top, rows, (n - base rows cols - 2) / 2, ?_, ?_⟩
          · simp only [validLabel, Bool.and_eq_true, decide_eq_true_eq]
            omega
          · rw [hkeyt]
            omega
      · have hkeyl : ∀ c2 : ℕ,
            split_edge (rows + 1) cols (.road .left (rows + 1) c2) =
              base rows cols + 2 * cols + 2 * c2 + 3 := by
          intro c2; simp only [split_edge, base]; ring
        have hkeyr : ∀ c2 : ℕ,
            split_edge (rows + 1) cols (.road .right (rows + 1) c2) =
              base rows cols + 2 * cols + 2 * c2 + 4 := by
          intro c2; simp only [split_edge, base]; ring
        by_cases hpar : (n - base rows cols - 2 * cols - 2) % 2 = 1
        · refine ⟨.left, rows + 1, (n - base rows cols - 2 * cols - 3) / 2,
            ?_, ?_⟩
          · simp only [validLabel, Bool.and_eq_true, decide_eq_true_eq]
            omega
          · rw [hkeyl]
            omega
        · refine ⟨.right, rows + 1, (n - base rows cols - 2 * cols - 4) / 2,
            ?_, ?_⟩
          · simp only [validLabel, Bool.and_eq_true, decide_eq_true_eq]
            omega
          · rw [hkeyr]
            omega

/-- Counterexample to claim C1: the image of the valid labels is not the
zero-indexed range `[0, num_edges)`.  On the 1 × 1 grid the valid center
label maps to `num_edges` itself (no valid label maps to 0, the index of
the empty sentinel); and on a 3 × 4 grid (twelve intersections) the two
distinct valid center labels 10 and 1 collide, because the center branch
of `_split_edge` reads only one digit. -/
theorem c1_counterexample :
    (validLabel 1 1 (.center 0) = true ∧
      split_edge 1 1 (.center 0) = 9 ∧
      num_edges 1 1 = 9 ∧
      ¬ split_edge 1 1 (.center 0) < num_edges 1 1) ∧
    (validLabel 3 4 (.center 10) = true ∧
      validLabel 3 4 (.center 1) = true ∧
      EdgeLabel.center 10 ≠ EdgeLabel.center 1 ∧
      split_edge 3 4 (.center 10) = split_edge 3 4 (.center 1)) := by
  decide

/-- Claim C1 amended: for every legal grid size with at most ten
intersections (so that the one-digit center parse is faithful), the
mapping of `_split_edge` is a bijection from the valid edge labels onto
the one-indexed contiguous range `[1, num_edges]`: valid labels map into
the range, distinct valid labels map to distinct indices, and every index
of the range is hit.  Index 0 is never assigned to a valid label; it is
the sentinel of the empty edge string. -/
theorem c1_split_edge_bijection (rows cols : ℕ) (hr : 1 ≤ rows)
    (hc : 1 ≤ cols) (hcap : rows * cols ≤ 10) :
    (∀ l, validLabel rows cols l = true →
      1 ≤ split_edge rows cols l ∧
        split_edge rows cols l ≤ num_edges rows cols) ∧
    (∀ l l2, validLabel rows cols l = true →
      validLabel rows cols l2 = true →
      split_edge rows cols l = split_edge rows cols l2 → l = l2) ∧
    (∀ n, 1 ≤ n → n ≤ num_edges rows cols →
      ∃ l, validLabel rows cols l = true ∧ split_edge rows cols l = n) := by
  refine ⟨?_, split_edge_inj rows cols hcap, ?_⟩
  · intro l hv
    cases l with
    | empty => simp [validLabel] at hv
    | center k =>
      simp only [validLabel, decide_eq_true_eq] at hv
      have hk : firstDigit k = k := firstDigit_eq (by omega)
      simp only [split_edge, num_edges, hk]
      omega
    | road t r c =>
      have hle := road_le_base rows cols t r c hv
      have h1 : 1 ≤ split_edge rows cols (.road t r c) := by
        cases t <;> simp [split_edge]
      refine ⟨h1, ?_⟩
      simp only [num_edges]
      omega
  · intro n h1 h2
    by_cases hn : n ≤ base rows cols
    · obtain ⟨t, r, c, hval, hidx⟩ := boundary_surj cols rows n h1 hn
      exact ⟨.road t r c, hval, hidx⟩
    · refine ⟨.center (n - base rows cols - 1), ?_, ?_⟩
      · simp only [validLabel, decide_eq_true_eq]
        simp only [num_edges] at h2
        omega
      · have hk : firstDigit (n - base rows cols - 1) =
            n - base rows cols - 1 := by
          refine firstDigit_eq ?_
          simp only [num_edges] at h2
          omega
        simp only [split_edge, hk]
        simp only [num_edges] at h2
        omega

/-- Witness for C1 (amended) at the 1 × 1 grid. -/
theorem c1_split_edge_bijection_witness :
    (1 ≤ 1 ∧ 1 * 1 ≤ 10) ∧
    ((∀ l, validLabel 1 1 l = true →
      1 ≤ split_edge 1 1 l ∧ split_edge 1 1 l ≤ num_edges 1 1) ∧
    (∀ l l2, validLabel 1 1 l = true → validLabel 1 1 l2 = true →
      split_edge 1 1 l = split_edge 1 1 l2 → l = l2) ∧
    (∀ n, 1 ≤ n → n ≤ num_edges 1 1 →
      ∃ l, validLabel 1 1 l = true ∧ split_edge 1 1 l = n)) :=
  ⟨⟨le_refl 1, by omega⟩,
    c1_split_edge_bijection 1 1 (le_refl 1) (le_refl 1) (by omega)⟩

end QueueGrid
